import Mathlib

/-!
Verification of the stream-correlation pipeline of the beyondbinary backend:
the tone sample store (`ToneAggregator`), the sliding audio window
(`ProsodyBuffer`), the background analysis scheduler, and the per-connection
utterance/tone correlation logic (`conversation_ws.on_tone_sample`).

Python floats are modelled as rationals (ℚ); audio byte strings as `List Nat`.
-/

/- Batteries seals the `Rat` field operations; restore reducibility so that
concrete rational computations can be settled by `decide`. -/
attribute [local semireducible] Rat.add Rat.mul Rat.sub Rat.inv Rat.ofScientific

namespace BeyondBinary

/-- A tone analysis result with time bounds (`ToneSample` dataclass in
`tone_aggregator.py`). -/
structure ToneSample where
  start_time : ℚ
  end_time : ℚ
  emotion : String
  confidence : ℚ
deriving DecidableEq, Repr

/-- `TONE_SAMPLE_RETENTION_SECONDS = 10.0`. -/
def TONE_SAMPLE_RETENTION_SECONDS : ℚ := 10

/-- `ToneAggregator.add_sample`: append the sample, then keep only samples whose
`end_time` exceeds `sample.end_time - TONE_SAMPLE_RETENTION_SECONDS`.
The store is the list `self._samples` in insertion order. -/
def add_sample (samples : List ToneSample) (sample : ToneSample) : List ToneSample :=
  let appended := samples ++ [sample]
  let cutoff := sample.end_time - TONE_SAMPLE_RETENTION_SECONDS
  appended.filter (fun s => cutoff < s.end_time)

/-- Result dict of `aggregate_for_utterance`: `{label, confidence, source="audio"}`.
The `source` key is the constant `"audio"`, omitted from the structure. -/
structure AggResult where
  label : String
  confidence : ℚ
deriving DecidableEq, Repr

/-- The `{"label": "neutral", "confidence": 0.0, "source": "audio"}` dict. -/
def neutralResult : AggResult := ⟨"neutral", 0⟩

/-- Python `round` ties-to-even on an exact rational: nearest integer,
with `.5` ties resolved to the even neighbour. -/
def pyRound (x : ℚ) : ℤ :=
  if Int.fract x = 1/2 then
    (if ⌊x⌋ % 2 = 0 then ⌊x⌋ else ⌊x⌋ + 1)
  else round x

/-- Python `round(x, 3)`. -/
def round3 (x : ℚ) : ℚ := (pyRound (1000 * x) : ℚ) / 1000

/-- The per-sample overlap computation of `aggregate_for_utterance` (lines
62-68): every stored sample paired with its overlap duration, keeping only
samples with strictly positive overlap. -/
def overlapping (samples : List ToneSample) (uStart uEnd : ℚ) :
    List (ToneSample × ℚ) :=
  samples.filterMap (fun s =>
    let oStart := max s.start_time uStart
    let oEnd := min s.end_time uEnd
    if oStart < oEnd then some (s, oEnd - oStart) else none)

/-- `weighted[sample.emotion] += sample.confidence * duration` accumulated over
the overlapping list: the final value stored under label `l` in the
`defaultdict(float)`. -/
def weightOf (ov : List (ToneSample × ℚ)) (l : String) : ℚ :=
  (ov.filter (fun p => p.1.emotion = l)).foldl
    (fun acc p => acc + p.1.confidence * p.2) 0

/-- Key insertion order of the `weighted` dict: first-occurrence order of the
emotions of the overlapping samples (Python dicts preserve the insertion order
of the first write to each key). -/
def keyOrder (ov : List (ToneSample × ℚ)) : List String :=
  ov.foldl (fun acc p => if p.1.emotion ∈ acc then acc else acc ++ [p.1.emotion]) []

/-- Python `max(keys, key=w)` tail: keeps the current best, replacing it only on
a strictly larger value (so the first maximiser in iteration order wins). -/
def pyMaxAux (w : String → ℚ) (best : String) : List String → String
  | [] => best
  | y :: ys => if w best < w y then pyMaxAux w y ys else pyMaxAux w best ys

/-- Python `max(weighted, key=weighted.get)` over the dict's key order. -/
def pyMax (w : String → ℚ) : List String → Option String
  | [] => none
  | x :: xs => some (pyMaxAux w x xs)

/-- `total_overlap = sum(d for _, d in overlapping)`. -/
def total_overlap (ov : List (ToneSample × ℚ)) : ℚ := (ov.map Prod.snd).sum

/-- `total_weight = sum(weighted.values())`: the weights of the distinct labels,
read off in dict key order. -/
def total_weight (ov : List (ToneSample × ℚ)) : ℚ :=
  ((keyOrder ov).map (weightOf ov)).sum

/-- The emotions of the overlapping samples (with multiplicity). -/
def emotionsOf (ov : List (ToneSample × ℚ)) : List String :=
  ov.map (fun p => p.1.emotion)

/-- `ToneAggregator.aggregate_for_utterance` (tone_aggregator.py lines 39-96).
Returns `none` for a non-positive utterance duration, otherwise the result dict. -/
def aggregate_for_utterance (samples : List ToneSample) (uStart uEnd : ℚ)
    (min_overlap_ratio : ℚ := 3/10) (min_confidence : ℚ := 3/10) :
    Option AggResult :=
  let utterance_duration := uEnd - uStart
  if utterance_duration ≤ 0 then none
  else
    let ov := overlapping samples uStart uEnd
    if ov = [] then some neutralResult
    else
      if total_overlap ov < utterance_duration * min_overlap_ratio then
        some neutralResult
      else
        match pyMax (weightOf ov) (keyOrder ov) with
        | none => some neutralResult
        | some best_label =>
          let avg_confidence :=
            if 0 < total_overlap ov then total_weight ov / total_overlap ov
            else 0
          if avg_confidence < min_confidence then some neutralResult
          else some ⟨best_label, round3 (min avg_confidence 1)⟩

/-! ### ProsodyBuffer: sliding audio window and analysis scheduler -/

/-- Raw audio bytes, modelled as a list of byte values. -/
abbrev AudioBytes := List Nat

/-- `BYTES_PER_SECOND = 16_000`. -/
def BYTES_PER_SECOND : ℚ := 16000

/-- `ProsodyBuffer.HUME_MAX_BYTES = 81_000`. -/
def HUME_MAX_BYTES : ℕ := 81000

/-- `ProsodyBuffer.append_chunk`: the rolling buffer `self.buffer` is a
`deque(maxlen=100)` of `(audio_bytes, timestamp)` pairs; appending to a full
deque first discards the oldest entry; afterwards entries with
`timestamp < current_time - window_size` are popped from the front. -/
def append_chunk (buffer : List (AudioBytes × ℚ)) (audio_bytes : AudioBytes)
    (current_time window_size : ℚ) : List (AudioBytes × ℚ) :=
  let bounded := if buffer.length = 100 then buffer.drop 1 else buffer
  let appended := bounded ++ [(audio_bytes, current_time)]
  let cutoff_time := current_time - window_size
  appended.dropWhile (fun c => decide (c.2 < cutoff_time))

/-- `ProsodyBuffer.get_buffer_audio`: concatenate the buffered chunks and keep
only the trailing `HUME_MAX_BYTES` bytes (`raw[-HUME_MAX_BYTES:]`). -/
def get_buffer_audio (buffer : List (AudioBytes × ℚ)) : AudioBytes :=
  let raw := (buffer.map Prod.fst).flatten
  if HUME_MAX_BYTES < raw.length then raw.drop (raw.length - HUME_MAX_BYTES)
  else raw

/-- A tone classification result dict. `primary_tone` and `confidence` are read
via `.get(key, default)`; a dict missing those keys is modelled by a record
carrying the defaults (`"neutral"`, `0.0`). -/
structure ToneResult where
  success : Bool
  primary_tone : String
  confidence : ℚ
deriving DecidableEq, Repr

/-- The fallback dict
`{"primary_tone": "neutral", "confidence": 0.0, "success": False}`. -/
def neutralTone : ToneResult := ⟨false, "neutral", 0⟩

/-- Scheduler-relevant state of a `ProsodyBuffer` instance. `has_analyzer`
stands for `self.tone_analyzer` being configured, and `analysis_in_flight` for
`self.analysis_task is not None and not self.analysis_task.done()`. -/
structure PBState where
  running : Bool
  window_size : ℚ
  analysis_interval : ℚ
  has_analyzer : Bool
  buffer : List (AudioBytes × ℚ)
  last_analysis_time : ℚ
  last_analyzed_buffer_end : ℚ
  last_append_time : ℚ
  analysis_in_flight : Bool
  current_tone : Option ToneResult
  last_tone : Option ToneResult
  tone_persistence_count : ℕ
deriving DecidableEq, Repr

/-- `ProsodyBuffer.should_analyze_now` at wall-clock time `now`:
`(time.time() - self.last_analysis_time) >= self.analysis_interval`. -/
def should_analyze_now (st : PBState) (now : ℚ) : Bool :=
  decide (st.analysis_interval ≤ now - st.last_analysis_time)

/-- `ProsodyBuffer.has_new_audio`: the newest buffered chunk is strictly newer
(beyond the `1e-6` epsilon) than the end of the last analyzed window. -/
def has_new_audio (st : PBState) : Bool :=
  match st.buffer.getLast? with
  | none => false
  | some c => decide (st.last_analyzed_buffer_end + 1/1000000 < c.2)

/-- `ProsodyBuffer.has_recent_audio` at time `now`: audio arrived within
`max(1.0, 2 × analysis_interval)` seconds. -/
def has_recent_audio (st : PBState) (now : ℚ) : Bool :=
  if st.last_append_time ≤ 0 then false
  else decide (now - st.last_append_time ≤ max 1 (st.analysis_interval * 2))

/-- `ProsodyBuffer.trigger_analysis_if_ready` at time `now`: returns whether a
new analysis task was launched, together with the updated scheduler state
(launching marks the task as in flight). -/
def trigger_analysis_if_ready (st : PBState) (now : ℚ) : Bool × PBState :=
  if !st.running then (false, st)
  else if !should_analyze_now st now then (false, st)
  else if !st.has_analyzer then (false, st)
  else if !has_new_audio st then (false, st)
  else if !has_recent_audio st now then (false, st)
  else if st.analysis_in_flight then (false, st)
  else (true, { st with analysis_in_flight := true })

/-- `ProsodyBuffer._should_emit_tone`. The persistence counter it writes is
handled by the caller (`run_analysis`); it is never read by the guard. -/
def should_emit_tone (new_tone : String) (new_confidence : ℚ) : Bool :=
  if new_tone = "" then false
  else if new_confidence < 1/20 then false
  else true

/-- The `(tone_result, start_time, end_time)` triple passed to the
`on_tone_sample` callback. -/
structure EmittedSample where
  tone : ToneResult
  start_time : ℚ
  end_time : ℚ
deriving DecidableEq, Repr

/-- `ProsodyBuffer._run_analysis`, the body of one analysis task, as a state
transformation. The classifier call is the argument `analyzer_result`:
`Except.error` models an exception raised during the awaited call (caught by
the task's all-catching `try/except`), `Except.ok` a returned dict.
`self._running` is treated as constant across the step. Returns the new state
together with the sample passed to `on_tone_sample`, if any. -/
def run_analysis (st : PBState) (now : ℚ)
    (analyzer_result : Except String ToneResult) :
    PBState × Option EmittedSample :=
  if !st.running then (st, none)
  else
    let window_audio := get_buffer_audio st.buffer
    let buffer_start := match st.buffer.head? with | some c => c.2 | none => now
    let buffer_end := match st.buffer.getLast? with | some c => c.2 | none => now
    let st₂ := { st with last_analysis_time := now,
                         last_analyzed_buffer_end := buffer_end }
    if window_audio.length < 8000 then (st₂, none)
    else
      match analyzer_result with
      | .error _ => (st₂, none)
      | .ok tr =>
        let tone_result := if tr.success then tr else st.last_tone.getD neutralTone
        let new_tone := tone_result.primary_tone
        let new_confidence := tone_result.confidence
        if should_emit_tone new_tone new_confidence then
          let analysis_duration := (window_audio.length : ℚ) / BYTES_PER_SECOND
          let end_time := buffer_end
          let start_time := max buffer_start (end_time - analysis_duration)
          ({ st₂ with current_tone := some tone_result,
                      last_tone := some tone_result,
                      tone_persistence_count := 1 },
            some ⟨tone_result, start_time, end_time⟩)
        else (st₂, none)

/-! ### Session orchestrator: `conversation_ws.on_tone_sample` -/

/-- A pending utterance entry `{id, start, end, tone_confidence}` tracked by
`conversation_ws` for late tone updates; `ustart`/`uend` are the dict keys
`"start"`/`"end"`. -/
structure PendingEntry where
  id : String
  ustart : ℚ
  uend : ℚ
  tone_confidence : ℚ
deriving DecidableEq, Repr

/-- A `tone_update` message sent for a specific pending utterance. -/
structure CorrectionEvent where
  utterance_id : String
  tone : String
  tone_confidence : ℚ
deriving DecidableEq, Repr

/-- One iteration of the main correction loop of `on_tone_sample`
(conversation.py lines 181-208): skip entries whose recorded confidence is
already ≥ 0.3, skip non-overlapping entries, re-aggregate over the store with
`min_overlap_ratio=0.05, min_confidence=0.1`, and on success update the entry
and emit a `tone_update`. -/
def correctOne (store : List ToneSample) (sStart sEnd : ℚ) (u : PendingEntry) :
    PendingEntry × Option CorrectionEvent :=
  if 3/10 ≤ u.tone_confidence then (u, none)
  else if min u.uend sEnd - max u.ustart sStart ≤ 0 then (u, none)
  else
    match aggregate_for_utterance store u.ustart u.uend (1/20) (1/10) with
    | none => (u, none)
    | some agg =>
      if agg.confidence < 1/10 then (u, none)
      else ({ u with tone_confidence := agg.confidence },
            some ⟨u.id, agg.label, agg.confidence⟩)

/-- The main correction loop of `on_tone_sample` over the pending list, in list
order; websocket sends are modelled as always succeeding. -/
def correctPending (store : List ToneSample) (sStart sEnd : ℚ) :
    List PendingEntry → List PendingEntry × List CorrectionEvent
  | [] => ([], [])
  | u :: rest =>
    let hd := correctOne store sStart sEnd u
    let tl := correctPending store sStart sEnd rest
    match hd.2 with
    | none => (hd.1 :: tl.1, tl.2)
    | some e => (hd.1 :: tl.1, e :: tl.2)

/-- The fallback pass of `on_tone_sample` (lines 210-227): scan the pending
list newest-first (`reversed(pending_utterances)`), correct the first entry
with recorded confidence `< 0.2` using the incoming sample's own label and
confidence, then stop. -/
def correctFallback (tone_label : String) (tone_conf : ℚ) :
    List PendingEntry → List PendingEntry × Option CorrectionEvent
  | [] => ([], none)
  | u :: rest =>
    let tl := correctFallback tone_label tone_conf rest
    match tl.2 with
    | some e => (u :: tl.1, some e)
    | none =>
      if u.tone_confidence < 1/5 then
        ({ u with tone_confidence := tone_conf } :: tl.1,
          some ⟨u.id, tone_label, tone_conf⟩)
      else (u :: tl.1, none)

/-- `conversation_ws.on_tone_sample` (conversation.py lines 164-227) as a pure
function of the connection's pending list and tone store: store the sample,
bail out if its confidence is below 0.1, run the main correction loop, and if
it updated nothing run the fallback pass. Returns the updated pending list,
the updated store, and the `tone_update` events sent (in order). -/
def on_tone_sample (pending : List PendingEntry) (store : List ToneSample)
    (tone_result : ToneResult) (start_time end_time : ℚ) :
    List PendingEntry × List ToneSample × List CorrectionEvent :=
  let sample : ToneSample :=
    ⟨start_time, end_time, tone_result.primary_tone, tone_result.confidence⟩
  let store' := add_sample store sample
  if tone_result.confidence < 1/10 then (pending, store', [])
  else
    let m := correctPending store' start_time end_time pending
    if m.2 = [] then
      let f := correctFallback tone_result.primary_tone tone_result.confidence m.1
      match f.2 with
      | some e => (f.1, store', [e])
      | none => (f.1, store', [])
    else (m.1, store', m.2)

/-! ### Helper lemmas about the aggregation algorithm -/

theorem foldl_add_map_sum {α : Type} (f : α → ℚ) (a : ℚ) (l : List α) :
    l.foldl (fun acc p => acc + f p) a = a + (l.map f).sum := by
  induction l generalizing a with
  | nil => simp
  | cons x xs ih => simp [ih, add_assoc]

theorem weightOf_eq_sum (ov : List (ToneSample × ℚ)) (l : String) :
    weightOf ov l =
      ((ov.filter (fun p => p.1.emotion = l)).map
        (fun p => p.1.confidence * p.2)).sum := by
  simp [weightOf, foldl_add_map_sum]

theorem weightOf_perm {ov₁ ov₂ : List (ToneSample × ℚ)} (h : ov₁.Perm ov₂)
    (l : String) : weightOf ov₁ l = weightOf ov₂ l := by
  rw [weightOf_eq_sum, weightOf_eq_sum]
  exact ((h.filter _).map _).sum_eq

theorem total_overlap_perm {ov₁ ov₂ : List (ToneSample × ℚ)} (h : ov₁.Perm ov₂) :
    total_overlap ov₁ = total_overlap ov₂ :=
  (h.map _).sum_eq

theorem keyOrder_aux_mem (ov : List (ToneSample × ℚ)) (acc : List String)
    (l : String) :
    l ∈ ov.foldl
        (fun acc p => if p.1.emotion ∈ acc then acc else acc ++ [p.1.emotion])
        acc ↔
      l ∈ acc ∨ l ∈ emotionsOf ov := by
  induction ov generalizing acc with
  | nil => simp [emotionsOf]
  | cons x xs ih =>
    simp only [List.foldl_cons, emotionsOf, List.map_cons, List.mem_cons]
    by_cases hx : x.1.emotion ∈ acc
    · rw [if_pos hx, ih]
      constructor
      · rintro (ha | hxs)
        · exact Or.inl ha
        · exact Or.inr (Or.inr hxs)
      · rintro (ha | rfl | hxs)
        · exact Or.inl ha
        · exact Or.inl hx
        · exact Or.inr hxs
    · rw [if_neg hx, ih]
      simp only [List.mem_append, List.mem_singleton]
      tauto

theorem keyOrder_mem (ov : List (ToneSample × ℚ)) (l : String) :
    l ∈ keyOrder ov ↔ l ∈ emotionsOf ov := by
  rw [keyOrder, keyOrder_aux_mem]; simp

theorem keyOrder_aux_nodup (ov : List (ToneSample × ℚ)) (acc : List String)
    (hacc : acc.Nodup) :
    (ov.foldl
        (fun acc p => if p.1.emotion ∈ acc then acc else acc ++ [p.1.emotion])
        acc).Nodup := by
  induction ov generalizing acc with
  | nil => simpa
  | cons x xs ih =>
    simp only [List.foldl_cons]
    by_cases hx : x.1.emotion ∈ acc
    · rw [if_pos hx]; exact ih acc hacc
    · rw [if_neg hx]
      exact ih _ (by simp [List.nodup_append, hacc, hx])

theorem keyOrder_nodup (ov : List (ToneSample × ℚ)) : (keyOrder ov).Nodup :=
  keyOrder_aux_nodup _ _ (by simp)

theorem keyOrder_ne_nil {ov : List (ToneSample × ℚ)} (h : ov ≠ []) :
    keyOrder ov ≠ [] := by
  cases ov with
  | nil => exact absurd rfl h
  | cons x xs =>
    intro hk
    have hmem : x.1.emotion ∈ keyOrder (x :: xs) :=
      (keyOrder_mem _ _).2 (by simp [emotionsOf])
    rw [hk] at hmem
    exact absurd hmem (List.not_mem_nil _)

theorem keyOrder_perm {ov₁ ov₂ : List (ToneSample × ℚ)} (h : ov₁.Perm ov₂) :
    (keyOrder ov₁).Perm (keyOrder ov₂) := by
  refine (List.perm_ext_iff_of_nodup (keyOrder_nodup _) (keyOrder_nodup _)).2 ?_
  intro a
  rw [keyOrder_mem, keyOrder_mem]
  exact (h.map _).mem_iff

theorem total_weight_perm {ov₁ ov₂ : List (ToneSample × ℚ)} (h : ov₁.Perm ov₂) :
    total_weight ov₁ = total_weight ov₂ := by
  unfold total_weight
  have hfun : weightOf ov₁ = weightOf ov₂ := funext (weightOf_perm h)
  rw [hfun]
  exact ((keyOrder_perm h).map _).sum_eq

theorem pyMaxAux_mem (w : String → ℚ) (b : String) (l : List String) :
    pyMaxAux w b l ∈ b :: l := by
  induction l generalizing b with
  | nil => simp [pyMaxAux]
  | cons y ys ih =>
    simp only [pyMaxAux]
    by_cases hlt : w b < w y
    · rw [if_pos hlt]
      have := ih y
      simp only [List.mem_cons] at this ⊢
      tauto
    · rw [if_neg hlt]
      have := ih b
      simp only [List.mem_cons] at this ⊢
      tauto

theorem pyMaxAux_le (w : String → ℚ) (b : String) (l : List String) :
    ∀ y ∈ b :: l, w y ≤ w (pyMaxAux w b l) := by
  induction l generalizing b with
  | nil =>
    intro y hy
    simp only [List.mem_cons, List.not_mem_nil, or_false] at hy
    subst hy
    simp [pyMaxAux]
  | cons z zs ih =>
    intro y hy
    simp only [pyMaxAux]
    simp only [List.mem_cons] at hy
    by_cases hlt : w b < w z
    · rw [if_pos hlt]
      rcases hy with h1 | h2 | hy'
      · rw [h1]; exact le_trans hlt.le (ih z z (by simp))
      · rw [h2]; exact ih z z (by simp)
      · exact ih z y (by simp [hy'])
    · rw [if_neg hlt]
      rcases hy with h1 | h2 | hy'
      · rw [h1]; exact ih b b (by simp)
      · rw [h2]; exact le_trans (not_lt.1 hlt) (ih b b (by simp))
      · exact ih b y (by simp [hy'])

theorem pyMax_spec (w : String → ℚ) {keys : List String} (h : keys ≠ []) :
    ∃ m, pyMax w keys = some m ∧ m ∈ keys ∧ ∀ y ∈ keys, w y ≤ w m := by
  cases keys with
  | nil => exact absurd rfl h
  | cons x xs => exact ⟨pyMaxAux w x xs, rfl, pyMaxAux_mem w x xs, pyMaxAux_le w x xs⟩

theorem pyRound_le {x : ℚ} {n : ℤ} (h : x ≤ n) : pyRound x ≤ n := by
  unfold pyRound
  by_cases hf : Int.fract x = 1/2
  · rw [if_pos hf]
    simp only [Int.fract] at hf
    have hxq : x = (⌊x⌋ : ℚ) + 1/2 := by linarith
    have hfl' : ⌊x⌋ < n := by
      have : (⌊x⌋ : ℚ) < (n : ℚ) := by rw [hxq] at h; linarith
      exact_mod_cast this
    by_cases he : ⌊x⌋ % 2 = 0
    · rw [if_pos he]; omega
    · rw [if_neg he]; omega
  · rw [if_neg hf, round_eq]
    have hlt : x + 1/2 < ((n + 1 : ℤ) : ℚ) := by push_cast; linarith
    have := Int.floor_lt.2 hlt
    omega

theorem round3_le_one {x : ℚ} (h : x ≤ 1) : round3 x ≤ 1 := by
  unfold round3
  have h1000 : 1000 * x ≤ ((1000 : ℤ) : ℚ) := by push_cast; linarith
  have hpr := pyRound_le h1000
  rw [div_le_one (by norm_num)]
  exact_mod_cast hpr

theorem aggregate_perm_cases {s₁ s₂ : List ToneSample} (uStart uEnd ratio conf : ℚ)
    (hperm : s₁.Perm s₂) :
    aggregate_for_utterance s₁ uStart uEnd ratio conf =
      aggregate_for_utterance s₂ uStart uEnd ratio conf ∨
    (∃ m₁ m₂ c,
      aggregate_for_utterance s₁ uStart uEnd ratio conf = some ⟨m₁, c⟩ ∧
      aggregate_for_utterance s₂ uStart uEnd ratio conf = some ⟨m₂, c⟩ ∧
      m₁ ∈ emotionsOf (overlapping s₁ uStart uEnd) ∧
      m₂ ∈ emotionsOf (overlapping s₁ uStart uEnd) ∧
      (∀ l ∈ emotionsOf (overlapping s₁ uStart uEnd),
        weightOf (overlapping s₁ uStart uEnd) l ≤
          weightOf (overlapping s₁ uStart uEnd) m₁) ∧
      (∀ l ∈ emotionsOf (overlapping s₁ uStart uEnd),
        weightOf (overlapping s₁ uStart uEnd) l ≤
          weightOf (overlapping s₁ uStart uEnd) m₂)) := by
  have hov : (overlapping s₁ uStart uEnd).Perm (overlapping s₂ uStart uEnd) :=
    hperm.filterMap _
  have hto : total_overlap (overlapping s₂ uStart uEnd) =
      total_overlap (overlapping s₁ uStart uEnd) := (total_overlap_perm hov).symm
  have hwf : weightOf (overlapping s₂ uStart uEnd) =
      weightOf (overlapping s₁ uStart uEnd) := (funext (weightOf_perm hov)).symm
  have htw : total_weight (overlapping s₂ uStart uEnd) =
      total_weight (overlapping s₁ uStart uEnd) := (total_weight_perm hov).symm
  have hem : ∀ l, l ∈ emotionsOf (overlapping s₂ uStart uEnd) ↔
      l ∈ emotionsOf (overlapping s₁ uStart uEnd) :=
    fun l => (hov.map _).mem_iff.symm
  by_cases hd : uEnd - uStart ≤ 0
  · left
    simp only [aggregate_for_utterance, if_pos hd]
  by_cases h1 : overlapping s₁ uStart uEnd = []
  · left
    have h2 : overlapping s₂ uStart uEnd = [] := (h1 ▸ hov : List.Perm [] _).symm.eq_nil
    simp only [aggregate_for_utterance, if_neg hd, if_pos h1, if_pos h2]
  have h2 : overlapping s₂ uStart uEnd ≠ [] := fun h => h1 ((h ▸ hov).eq_nil)
  by_cases h3 : total_overlap (overlapping s₁ uStart uEnd) < (uEnd - uStart) * ratio
  · left
    simp only [aggregate_for_utterance, if_neg hd, if_neg h1, if_neg h2, hto,
      if_pos h3]
  obtain ⟨m₁, hpy₁, hmem₁, hmax₁⟩ :=
    pyMax_spec (weightOf (overlapping s₁ uStart uEnd)) (keyOrder_ne_nil h1)
  obtain ⟨m₂, hpy₂, hmem₂, hmax₂⟩ :=
    pyMax_spec (weightOf (overlapping s₂ uStart uEnd)) (keyOrder_ne_nil h2)
  rw [hwf] at hpy₂ hmax₂
  by_cases h4 :
      (if 0 < total_overlap (overlapping s₁ uStart uEnd) then
        total_weight (overlapping s₁ uStart uEnd) /
          total_overlap (overlapping s₁ uStart uEnd)
      else 0) < conf
  · left
    simp only [aggregate_for_utterance, if_neg hd, if_neg h1, if_neg h2, hto, hwf,
      htw, if_neg h3, hpy₁, hpy₂, if_pos h4]
  · right
    refine ⟨m₁, m₂,
      round3 (min (if 0 < total_overlap (overlapping s₁ uStart uEnd) then
        total_weight (overlapping s₁ uStart uEnd) /
          total_overlap (overlapping s₁ uStart uEnd) else 0) 1), ?_, ?_,
      (keyOrder_mem _ _).1 hmem₁,
      (hem m₂).1 ((keyOrder_mem _ _).1 hmem₂),
      fun l hl => hmax₁ l ((keyOrder_mem _ _).2 hl),
      fun l hl => hmax₂ l ((keyOrder_mem _ _).2 ((hem l).2 hl))⟩
    · simp only [aggregate_for_utterance, if_neg hd, if_neg h1, if_neg h3, hpy₁,
        if_neg h4]
    · simp only [aggregate_for_utterance, if_neg hd, if_neg h2, hto, hwf, htw,
        if_neg h3, hpy₂, if_neg h4]

/-! ### Claim theorems about `ToneAggregator.aggregate_for_utterance` -/

/-- Claim C2: for an utterance window with positive duration whose overlapping
samples reach the coverage threshold (`total_overlap ≥ min_overlap_ratio ×
duration`, with a positive ratio), `aggregate_for_utterance` accumulates
`weight[label] += confidence × overlap_duration` over the overlapping samples
and, whenever `total_weight / total_overlap ≥ min_confidence`, returns a label
attaining the maximum accumulated weight, with the (rounded, capped) average
confidence. -/
theorem claim_C2_weighted_vote
    (samples : List ToneSample) (uStart uEnd ratio conf : ℚ)
    (hdur : 0 < uEnd - uStart) (hratio : 0 < ratio)
    (hcov : (uEnd - uStart) * ratio ≤ total_overlap (overlapping samples uStart uEnd))
    (hconf : conf ≤ total_weight (overlapping samples uStart uEnd) /
      total_overlap (overlapping samples uStart uEnd)) :
    ∃ best,
      aggregate_for_utterance samples uStart uEnd ratio conf =
        some ⟨best, round3 (min (total_weight (overlapping samples uStart uEnd) /
          total_overlap (overlapping samples uStart uEnd)) 1)⟩ ∧
      best ∈ emotionsOf (overlapping samples uStart uEnd) ∧
      ∀ l ∈ emotionsOf (overlapping samples uStart uEnd),
        weightOf (overlapping samples uStart uEnd) l ≤
          weightOf (overlapping samples uStart uEnd) best := by
  have hto_pos : 0 < total_overlap (overlapping samples uStart uEnd) :=
    lt_of_lt_of_le (by nlinarith) hcov
  have hov : overlapping samples uStart uEnd ≠ [] := by
    intro h
    rw [h] at hto_pos
    simp [total_overlap] at hto_pos
  obtain ⟨m, hpy, hmem, hmax⟩ :=
    pyMax_spec (weightOf (overlapping samples uStart uEnd)) (keyOrder_ne_nil hov)
  refine ⟨m, ?_, (keyOrder_mem _ _).1 hmem, fun l hl => hmax l ((keyOrder_mem _ _).2 hl)⟩
  simp only [aggregate_for_utterance]
  rw [if_neg (by linarith : ¬ uEnd - uStart ≤ 0), if_neg hov, if_neg (not_lt.2 hcov)]
  rw [hpy]
  simp only [if_pos hto_pos]
  rw [if_neg (not_lt.2 hconf)]

/-- Witness for claim C2 at the spec's example: window `[0,2]`, sample A
`[0,1] "calm" 0.9`, sample B `[1,2] "concern" 0.4`; the winner is `"calm"`
with confidence `0.65`. -/
theorem claim_C2_witness :
    (0:ℚ) < 2 - 0 ∧ (0:ℚ) < 3/10 ∧
    ((2:ℚ) - 0) * (3/10) ≤
      total_overlap (overlapping [⟨0,1,"calm",9/10⟩, ⟨1,2,"concern",4/10⟩] 0 2) ∧
    (3:ℚ)/10 ≤
      total_weight (overlapping [⟨0,1,"calm",9/10⟩, ⟨1,2,"concern",4/10⟩] 0 2) /
        total_overlap (overlapping [⟨0,1,"calm",9/10⟩, ⟨1,2,"concern",4/10⟩] 0 2) ∧
    (∃ best,
      aggregate_for_utterance [⟨0,1,"calm",9/10⟩, ⟨1,2,"concern",4/10⟩] 0 2 (3/10) (3/10) =
        some ⟨best,
          round3 (min (total_weight (overlapping [⟨0,1,"calm",9/10⟩, ⟨1,2,"concern",4/10⟩] 0 2) /
            total_overlap (overlapping [⟨0,1,"calm",9/10⟩, ⟨1,2,"concern",4/10⟩] 0 2)) 1)⟩ ∧
      best ∈ emotionsOf (overlapping [⟨0,1,"calm",9/10⟩, ⟨1,2,"concern",4/10⟩] 0 2) ∧
      ∀ l ∈ emotionsOf (overlapping [⟨0,1,"calm",9/10⟩, ⟨1,2,"concern",4/10⟩] 0 2),
        weightOf (overlapping [⟨0,1,"calm",9/10⟩, ⟨1,2,"concern",4/10⟩] 0 2) l ≤
          weightOf (overlapping [⟨0,1,"calm",9/10⟩, ⟨1,2,"concern",4/10⟩] 0 2) best) ∧
    aggregate_for_utterance [⟨0,1,"calm",9/10⟩, ⟨1,2,"concern",4/10⟩] 0 2 (3/10) (3/10) =
      some ⟨"calm", 13/20⟩ :=
  ⟨by norm_num, by norm_num, by decide, by decide,
    claim_C2_weighted_vote _ 0 2 (3/10) (3/10) (by norm_num) (by norm_num)
      (by decide) (by decide),
    by decide⟩

/-- Claim C3: for an utterance window with positive duration, if no stored
sample has strictly positive overlap with the window, or the sum of overlap
durations is below `min_overlap_ratio` times the duration, the aggregation
returns `{"label": "neutral", "confidence": 0}`. -/
theorem claim_C3_insufficient_coverage
    (samples : List ToneSample) (uStart uEnd ratio conf : ℚ)
    (hdur : 0 < uEnd - uStart)
    (hcase : overlapping samples uStart uEnd = [] ∨
      total_overlap (overlapping samples uStart uEnd) < (uEnd - uStart) * ratio) :
    aggregate_for_utterance samples uStart uEnd ratio conf = some neutralResult := by
  simp only [aggregate_for_utterance]
  rw [if_neg (by linarith : ¬ uEnd - uStart ≤ 0)]
  by_cases hov : overlapping samples uStart uEnd = []
  · rw [if_pos hov]
  · rw [if_neg hov]
    rcases hcase with h | h
    · exact absurd h hov
    · rw [if_pos h]

/-- Witness for claim C3 at the spec's example: window `[0,10]` with the single
sample `[0,1] "happy" 0.9` and `min_overlap_ratio = 0.3` returns neutral. -/
theorem claim_C3_witness :
    (0:ℚ) < 10 - 0 ∧
    (overlapping [⟨0,1,"happy",9/10⟩] 0 10 = [] ∨
      total_overlap (overlapping [⟨0,1,"happy",9/10⟩] 0 10) < ((10:ℚ) - 0) * (3/10)) ∧
    aggregate_for_utterance [⟨0,1,"happy",9/10⟩] 0 10 (3/10) (3/10) =
      some neutralResult :=
  ⟨by norm_num, Or.inr (by decide),
    claim_C3_insufficient_coverage _ 0 10 (3/10) (3/10) (by norm_num)
      (Or.inr (by decide))⟩

/-- Claim C9: aggregation is commutative over the sample set for a fixed
utterance window: permuting the stored samples never changes the returned
confidence, and never changes the returned label when the maximum accumulated
weight is attained by a unique label. -/
theorem claim_C9_commutative (s₁ s₂ : List ToneSample) (uStart uEnd ratio conf : ℚ)
    (hperm : s₁.Perm s₂) :
    (aggregate_for_utterance s₁ uStart uEnd ratio conf).map AggResult.confidence =
      (aggregate_for_utterance s₂ uStart uEnd ratio conf).map AggResult.confidence ∧
    (∀ m, m ∈ emotionsOf (overlapping s₁ uStart uEnd) →
      (∀ l ∈ emotionsOf (overlapping s₁ uStart uEnd), l ≠ m →
        weightOf (overlapping s₁ uStart uEnd) l <
          weightOf (overlapping s₁ uStart uEnd) m) →
      aggregate_for_utterance s₁ uStart uEnd ratio conf =
        aggregate_for_utterance s₂ uStart uEnd ratio conf) := by
  rcases aggregate_perm_cases uStart uEnd ratio conf hperm with heq |
    ⟨m₁, m₂, c, e₁, e₂, hm₁, hm₂, hmax₁, hmax₂⟩
  · exact ⟨by rw [heq], fun m _ _ => heq⟩
  · constructor
    · rw [e₁, e₂]; rfl
    · intro m hm hu
      have em₁ : m₁ = m := by
        by_contra hne
        exact absurd (hmax₁ m hm) (not_le.2 (hu m₁ hm₁ hne))
      have em₂ : m₂ = m := by
        by_contra hne
        exact absurd (hmax₂ m hm) (not_le.2 (hu m₂ hm₂ hne))
      rw [e₁, e₂, em₁, em₂]

/-- Witness for claim C9: swapping the two samples of the C2 example preserves
the aggregation result. -/
theorem claim_C9_witness :
    ([⟨0,1,"calm",9/10⟩, ⟨1,2,"concern",4/10⟩] : List ToneSample).Perm
      [⟨1,2,"concern",4/10⟩, ⟨0,1,"calm",9/10⟩] ∧
    ((aggregate_for_utterance [⟨0,1,"calm",9/10⟩, ⟨1,2,"concern",4/10⟩] 0 2 (3/10) (3/10)).map
        AggResult.confidence =
      (aggregate_for_utterance [⟨1,2,"concern",4/10⟩, ⟨0,1,"calm",9/10⟩] 0 2 (3/10) (3/10)).map
        AggResult.confidence ∧
    (∀ m, m ∈ emotionsOf (overlapping [⟨0,1,"calm",9/10⟩, ⟨1,2,"concern",4/10⟩] 0 2) →
      (∀ l ∈ emotionsOf (overlapping [⟨0,1,"calm",9/10⟩, ⟨1,2,"concern",4/10⟩] 0 2), l ≠ m →
        weightOf (overlapping [⟨0,1,"calm",9/10⟩, ⟨1,2,"concern",4/10⟩] 0 2) l <
          weightOf (overlapping [⟨0,1,"calm",9/10⟩, ⟨1,2,"concern",4/10⟩] 0 2) m) →
      aggregate_for_utterance [⟨0,1,"calm",9/10⟩, ⟨1,2,"concern",4/10⟩] 0 2 (3/10) (3/10) =
        aggregate_for_utterance [⟨1,2,"concern",4/10⟩, ⟨0,1,"calm",9/10⟩] 0 2 (3/10) (3/10))) :=
  ⟨by decide, claim_C9_commutative _ _ 0 2 (3/10) (3/10) (by decide)⟩

/-- Claim C10: for a non-positive utterance duration `aggregate_for_utterance`
returns `none` (not a neutral dict), for every state of the sample store; and
whenever it returns a dict, the confidence is at most 1 (the weighted average
is capped at 1.0 before rounding). -/
theorem claim_C10_none_and_cap :
    (∀ (samples : List ToneSample) (uStart uEnd r c : ℚ), uEnd ≤ uStart →
      aggregate_for_utterance samples uStart uEnd r c = none) ∧
    (∀ (samples : List ToneSample) (uStart uEnd r c : ℚ) (res : AggResult),
      aggregate_for_utterance samples uStart uEnd r c = some res →
      res.confidence ≤ 1) := by
  constructor
  · intro samples uStart uEnd r c h
    simp only [aggregate_for_utterance]
    rw [if_pos (by linarith : uEnd - uStart ≤ 0)]
  · intro samples uStart uEnd r c res h
    simp only [aggregate_for_utterance] at h
    split at h
    · exact absurd h (by simp)
    · split at h
      · cases h with | refl => norm_num [neutralResult]
      · split at h
        · cases h with | refl => norm_num [neutralResult]
        · split at h
          · cases h with | refl => norm_num [neutralResult]
          · split at h <;> split at h <;>
              first
                | (cases h with | refl => norm_num [neutralResult])
                | (cases h with | refl => exact round3_le_one (min_le_right _ _))

/-- Witness for claim C10: the degenerate window `[5,3]` yields `none`, and a
concrete returned dict has confidence at most 1. -/
theorem claim_C10_witness :
    aggregate_for_utterance [] 5 3 (3/10) (3/10) = none ∧ (9:ℚ)/10 ≤ 1 :=
  ⟨claim_C10_none_and_cap.1 [] 5 3 (3/10) (3/10) (by norm_num),
   claim_C10_none_and_cap.2 [⟨0,2,"calm",9/10⟩] 0 2 (3/10) (3/10) ⟨"calm", 9/10⟩
     (by decide)⟩

/-- Claim C5 (amended): after every `add_sample` call, every retained sample's
`end_time` strictly exceeds the end_time of the most recently added sample
minus `TONE_SAMPLE_RETENTION_SECONDS` (10 s), for every prior store contents,
including out-of-order arrivals. The original claim's cutoff — the maximum
end_time over all samples ever added — fails on out-of-order adds, since the
code computes the cutoff from the sample being added, not the maximum. -/
theorem claim_C5_retention (samples : List ToneSample) (s t : ToneSample)
    (ht : t ∈ add_sample samples s) :
    s.end_time - TONE_SAMPLE_RETENTION_SECONDS < t.end_time := by
  unfold add_sample at ht
  have := (List.mem_filter.1 ht).2
  simpa using this

/-- Witness for claim C5 at a concrete store. -/
theorem claim_C5_witness :
    ((⟨0,5,"b",1⟩ : ToneSample) ∈
      add_sample (add_sample [] ⟨0,100,"a",1⟩) ⟨0,5,"b",1⟩) ∧
    (5:ℚ) - TONE_SAMPLE_RETENTION_SECONDS < 5 :=
  ⟨by decide, claim_C5_retention (add_sample [] ⟨0,100,"a",1⟩) ⟨0,5,"b",1⟩ ⟨0,5,"b",1⟩ (by decide)⟩

/-- Counterexample to claim C5 as stated: adding a sample with `end_time 100`
and then an out-of-order sample with `end_time 5` leaves both retained, yet the
maximum end_time ever added is 100 and `5 < 100 - 10`, violating the claimed
invariant. -/
theorem claim_C5_counterexample :
    ((⟨0,5,"b",1⟩ : ToneSample) ∈
      add_sample (add_sample [] ⟨0,100,"a",1⟩) ⟨0,5,"b",1⟩) ∧
    ((⟨0,100,"a",1⟩ : ToneSample) ∈
      add_sample (add_sample [] ⟨0,100,"a",1⟩) ⟨0,5,"b",1⟩) ∧
    ¬ ((100:ℚ) - 10 ≤ (5:ℚ)) :=
  ⟨by decide, by decide, by norm_num⟩

/-- On a buffer sorted by timestamp, popping stale entries from the front
removes exactly the entries older than the cutoff. -/
theorem dropWhile_lt_eq_filter (c : ℚ) (l : List (AudioBytes × ℚ))
    (hs : l.Pairwise (fun a b => a.2 ≤ b.2)) :
    l.dropWhile (fun p => decide (p.2 < c)) =
      l.filter (fun p => decide (c ≤ p.2)) := by
  induction l with
  | nil => rfl
  | cons x xs ih =>
    rcases List.pairwise_cons.1 hs with ⟨hx, hxs⟩
    by_cases hlt : x.2 < c
    · rw [List.dropWhile_cons_of_pos (by simpa using hlt),
        List.filter_cons_of_neg (by simpa using hlt)]
      exact ih hxs
    · rw [List.dropWhile_cons_of_neg (by simpa using hlt),
        List.filter_cons_of_pos (by simpa using not_lt.1 hlt)]
      have hall : xs.filter (fun p => decide (c ≤ p.2)) = xs :=
        List.filter_eq_self.2
          (fun p hp => by simpa using le_trans (not_lt.1 hlt) (hx p hp))
      rw [hall]

/-- Claim C6: after `append_chunk` at arrival time `t` on a buffer whose
timestamps are nondecreasing and at most `t` (as arises from appending with a
monotone wall clock) and which is below the 100-chunk capacity, the buffer
holds exactly the previously buffered chunks with timestamp at least
`t - window_size`, in arrival order, followed by the new chunk. -/
theorem claim_C6_window (buffer : List (AudioBytes × ℚ)) (audio_bytes : AudioBytes)
    (t w : ℚ) (hlen : buffer.length < 100)
    (hsorted : buffer.Pairwise (fun a b => a.2 ≤ b.2))
    (hts : ∀ p ∈ buffer, p.2 ≤ t) (hw : 0 ≤ w) :
    append_chunk buffer audio_bytes t w =
      buffer.filter (fun p => decide (t - w ≤ p.2)) ++ [(audio_bytes, t)] := by
  unfold append_chunk
  rw [if_neg (Nat.ne_of_lt hlen)]
  have hs' : (buffer ++ [(audio_bytes, t)]).Pairwise
      (fun a b : AudioBytes × ℚ => a.2 ≤ b.2) := by
    rw [List.pairwise_append]
    exact ⟨hsorted, by simp, by simpa using hts⟩
  rw [dropWhile_lt_eq_filter _ _ hs', List.filter_append]
  congr 1
  rw [List.filter_cons, if_pos (by simpa using by linarith : decide (t - w ≤ t) = true)]
  rfl



/-- Witness for claim C6 at the spec's example: chunks at times 0,1,2,3 with
`window_size = 2.0`; after the append at `t = 3` only chunks with timestamp
≥ 1 remain. -/
theorem claim_C6_witness :
    ([([0],0),([1],1),([2],2)] : List (AudioBytes × ℚ)).length < 100 ∧
    ([([0],0),([1],1),([2],2)] : List (AudioBytes × ℚ)).Pairwise
      (fun a b => a.2 ≤ b.2) ∧
    (∀ p ∈ ([([0],0),([1],1),([2],2)] : List (AudioBytes × ℚ)), p.2 ≤ 3) ∧
    (0:ℚ) ≤ 2 ∧
    append_chunk [([0],0),([1],1),([2],2)] [3] 3 2 =
      ([([0],0),([1],1),([2],2)] : List (AudioBytes × ℚ)).filter
        (fun p => decide ((3:ℚ) - 2 ≤ p.2)) ++ [([3],3)] ∧
    append_chunk [([0],0),([1],1),([2],2)] [3] 3 2 = [([1],1),([2],2),([3],3)] :=
  ⟨by decide, by decide, by decide, by norm_num,
    claim_C6_window [([0],0),([1],1),([2],2)] [3] 3 2 (by decide) (by decide)
      (by decide) (by norm_num),
    by decide⟩

/-- Claim C1: `trigger_analysis_if_ready` launches an analysis task iff the
buffer is running, `analysis_interval` has elapsed since the last analysis, an
analyzer is configured, `has_new_audio` and `has_recent_audio` both hold, and
no previous analysis task is in flight; in particular, for any scheduler state
(hence along every sequence of ticks) it never launches while a previous task
is outstanding, and a launch marks the task as in flight. -/
theorem claim_C1_scheduler :
    (∀ (st : PBState) (now : ℚ), (trigger_analysis_if_ready st now).1 = true ↔
      (st.running = true ∧ should_analyze_now st now = true ∧
       st.has_analyzer = true ∧ has_new_audio st = true ∧
       has_recent_audio st now = true ∧ st.analysis_in_flight = false)) ∧
    (∀ (st : PBState) (now : ℚ), st.analysis_in_flight = true →
      (trigger_analysis_if_ready st now).1 = false) ∧
    (∀ (st : PBState) (now : ℚ), (trigger_analysis_if_ready st now).1 = true →
      (trigger_analysis_if_ready st now).2.analysis_in_flight = true) := by
  refine ⟨fun st now => ?_, fun st now h => ?_, fun st now h => ?_⟩
  · unfold trigger_analysis_if_ready
    cases hr : st.running <;> cases hs : should_analyze_now st now <;>
      cases ha : st.has_analyzer <;> cases hn : has_new_audio st <;>
      cases hrec : has_recent_audio st now <;> cases hf : st.analysis_in_flight <;>
      simp [hr, hs, ha, hn, hrec, hf]
  · unfold trigger_analysis_if_ready
    cases hr : st.running <;> cases hs : should_analyze_now st now <;>
      cases ha : st.has_analyzer <;> cases hn : has_new_audio st <;>
      cases hrec : has_recent_audio st now <;>
      simp [hr, hs, ha, hn, hrec, h]
  · unfold trigger_analysis_if_ready at h ⊢
    cases hr : st.running <;> cases hs : should_analyze_now st now <;>
      cases ha : st.has_analyzer <;> cases hn : has_new_audio st <;>
      cases hrec : has_recent_audio st now <;> cases hf : st.analysis_in_flight <;>
      simp [hr, hs, ha, hn, hrec, hf] at h ⊢



/-- Witness for claim C1: a concrete busy state where no second launch occurs,
and a concrete ready state whose launch marks the task in flight. -/
theorem claim_C1_witness :
    ((trigger_analysis_if_ready
        ⟨true, 2, 4/5, true, [([0], 1)], 0, 0, 1, true, none, none, 0⟩ 2).1 = false) ∧
    ((trigger_analysis_if_ready
        ⟨true, 2, 4/5, true, [([0], 1)], 0, 0, 1, false, none, none, 0⟩ 2).2.analysis_in_flight
      = true) :=
  ⟨claim_C1_scheduler.2.1 _ 2 rfl, claim_C1_scheduler.2.2 _ 2 (by decide)⟩

/-- The smoothing gate accepts only non-empty labels with confidence at least
0.05. -/
theorem should_emit_tone_true {t : String} {c : ℚ}
    (h : should_emit_tone t c = true) : t ≠ "" ∧ 1/20 ≤ c := by
  unfold should_emit_tone at h
  split_ifs at h with h1 h2
  exact ⟨h1, not_lt.1 h2⟩

/-- Claim C8: when the classifier result is unsuccessful, `_run_analysis`
substitutes the last known good tone result (or the neutral fallback if none
exists) in the emitted sample; a classifier exception never escapes (the
cycle is skipped with no sample); and every sample it emits passes the
smoothing gate: non-empty label and confidence at least 0.05. -/
theorem claim_C8_failure_and_gate :
    (∀ (st : PBState) (now : ℚ) (tr : ToneResult) (st' : PBState)
        (s : EmittedSample),
      run_analysis st now (.ok tr) = (st', some s) → tr.success = false →
      s.tone = st.last_tone.getD neutralTone) ∧
    (∀ (st : PBState) (now : ℚ) (e : String),
      (run_analysis st now (.error e)).2 = none) ∧
    (∀ (st : PBState) (now : ℚ) (r : Except String ToneResult) (st' : PBState)
        (s : EmittedSample),
      run_analysis st now r = (st', some s) →
      s.tone.primary_tone ≠ "" ∧ 1/20 ≤ s.tone.confidence) := by
  refine ⟨?_, ?_, ?_⟩
  · intro st now tr st' s h hfail
    simp only [run_analysis] at h
    split at h
    · exact absurd h (by simp)
    · split at h
      · exact absurd h (by simp)
      · rw [hfail] at h
        simp only [Bool.false_eq_true, if_false] at h
        split at h
        · rw [Prod.mk.injEq] at h
          rw [← Option.some_inj.1 h.2]
        · exact absurd h (by simp)
  · intro st now e
    simp only [run_analysis]
    split
    · rfl
    · split
      · rfl
      · rfl
  · intro st now r st' s h
    simp only [run_analysis] at h
    split at h
    · exact absurd h (by simp)
    · split at h
      · exact absurd h (by simp)
      · match r with
        | .error e => exact absurd h (by simp)
        | .ok tr =>
          simp only at h
          split at h <;> split at h
          · rename_i hemit
            injection h with h1 h2
            injection h2 with h3
            rw [← h3]
            exact should_emit_tone_true hemit
          · injection h with h1 h2
            exact Option.noConfusion h2
          · rename_i hemit
            injection h with h1 h2
            injection h2 with h3
            rw [← h3]
            exact should_emit_tone_true hemit
          · injection h with h1 h2
            exact Option.noConfusion h2

/-- A pending entry meeting all the correction conditions is updated and
yields its correction event. -/
theorem correctOne_hit (store : List ToneSample) (sS sE : ℚ) (u : PendingEntry)
    (hlow : u.tone_confidence < 3/10)
    (hover : 0 < min u.uend sE - max u.ustart sS) (agg : AggResult)
    (hagg : aggregate_for_utterance store u.ustart u.uend (1/20) (1/10) = some agg)
    (haggc : 1/10 ≤ agg.confidence) :
    correctOne store sS sE u =
      ({ u with tone_confidence := agg.confidence },
        some ⟨u.id, agg.label, agg.confidence⟩) := by
  unfold correctOne
  rw [if_neg (not_le.2 hlow), if_neg (not_le.2 hover)]
  simp only [hagg]
  rw [if_neg (not_lt.2 haggc)]

/-- A pending entry with no overlap is left untouched. -/
theorem correctOne_no_overlap (store : List ToneSample) (sS sE : ℚ)
    (u : PendingEntry) (hover : min u.uend sE - max u.ustart sS ≤ 0) :
    correctOne store sS sE u = (u, none) := by
  unfold correctOne
  by_cases hc : 3/10 ≤ u.tone_confidence
  · rw [if_pos hc]
  · rw [if_neg hc, if_pos hover]

theorem correctPending_cons_fst (store : List ToneSample) (sS sE : ℚ)
    (u : PendingEntry) (rest : List PendingEntry) :
    (correctPending store sS sE (u :: rest)).1 =
      (correctOne store sS sE u).1 :: (correctPending store sS sE rest).1 := by
  simp only [correctPending]
  cases (correctOne store sS sE u).2 <;> rfl

theorem correctPending_cons_snd_mem (store : List ToneSample) (sS sE : ℚ)
    (u : PendingEntry) (rest : List PendingEntry) (e : CorrectionEvent)
    (he : e ∈ (correctPending store sS sE rest).2) :
    e ∈ (correctPending store sS sE (u :: rest)).2 := by
  simp only [correctPending]
  cases (correctOne store sS sE u).2 <;> simp [he]

theorem correctPending_no_overlap (store : List ToneSample) (sS sE : ℚ)
    (l : List PendingEntry)
    (h : ∀ u ∈ l, min u.uend sE - max u.ustart sS ≤ 0) :
    correctPending store sS sE l = (l, []) := by
  induction l with
  | nil => rfl
  | cons u rest ih =>
    simp only [correctPending]
    rw [correctOne_no_overlap store sS sE u (h u (by simp)),
      ih (fun v hv => h v (by simp [hv]))]

theorem correctPending_get (store : List ToneSample) (sS sE : ℚ)
    (l : List PendingEntry) (i : ℕ) (hi : i < l.length)
    (hlow : (l.get ⟨i, hi⟩).tone_confidence < 3/10)
    (hover : 0 < min (l.get ⟨i, hi⟩).uend sE - max (l.get ⟨i, hi⟩).ustart sS)
    (agg : AggResult)
    (hagg : aggregate_for_utterance store (l.get ⟨i, hi⟩).ustart
      (l.get ⟨i, hi⟩).uend (1/20) (1/10) = some agg)
    (haggc : 1/10 ≤ agg.confidence) :
    (⟨(l.get ⟨i, hi⟩).id, agg.label, agg.confidence⟩ : CorrectionEvent) ∈
      (correctPending store sS sE l).2 ∧
    ∃ hi' : i < (correctPending store sS sE l).1.length,
      ((correctPending store sS sE l).1.get ⟨i, hi'⟩).tone_confidence =
        agg.confidence := by
  induction l generalizing i with
  | nil => exact absurd hi (by simp)
  | cons u rest ih =>
    cases i with
    | zero =>
      simp only [List.get] at hlow hover hagg ⊢
      have hone := correctOne_hit store sS sE u hlow hover agg hagg haggc
      constructor
      · simp only [correctPending, hone]
        simp
      · rw [correctPending_cons_fst]
        refine ⟨by simp, ?_⟩
        simp [hone]
    | succ j =>
      simp only [List.get] at hlow hover hagg ⊢
      have hj : j < rest.length := by simpa using Nat.lt_of_succ_lt_succ hi
      obtain ⟨hmem, hj', hcf⟩ := ih j hj hlow hover hagg
      refine ⟨correctPending_cons_snd_mem store sS sE u rest _ hmem, ?_⟩
      rw [correctPending_cons_fst]
      exact ⟨by simpa using Nat.succ_lt_succ hj', by simpa using hcf⟩



theorem correctFallback_none (label : String) (conf : ℚ)
    (l : List PendingEntry)
    (h : ∀ u ∈ l, ¬ (u.tone_confidence < 1/5)) :
    correctFallback label conf l = (l, none) := by
  induction l with
  | nil => rfl
  | cons u rest ih =>
    simp only [correctFallback]
    rw [ih (fun v hv => h v (by simp [hv]))]
    simp only []
    rw [if_neg (h u (by simp))]

/-- When some pending entry has confidence below 0.2, the fallback pass
corrects exactly the newest such entry. -/
theorem correctFallback_spec (label : String) (conf : ℚ)
    (l : List PendingEntry)
    (h : ∃ u ∈ l, u.tone_confidence < 1/5) :
    ∃ (i : ℕ) (hi : i < l.length),
      (l.get ⟨i, hi⟩).tone_confidence < 1/5 ∧
      (∀ (j : ℕ) (hj : j < l.length), i < j →
        ¬ ((l.get ⟨j, hj⟩).tone_confidence < 1/5)) ∧
      correctFallback label conf l =
        (l.set i { l.get ⟨i, hi⟩ with tone_confidence := conf },
          some ⟨(l.get ⟨i, hi⟩).id, label, conf⟩) := by
  induction l with
  | nil => simp at h
  | cons u rest ih =>
    by_cases hrest : ∃ v ∈ rest, v.tone_confidence < 1/5
    · obtain ⟨i, hi, hlow, hafter, heq⟩ := ih hrest
      refine ⟨i + 1, by simpa using Nat.succ_lt_succ hi, by simpa using hlow,
        ?_, ?_⟩
      · intro j hj hij
        cases j with
        | zero => omega
        | succ k =>
          simp only [List.get]
          exact hafter k (by simpa using Nat.lt_of_succ_lt_succ hj) (by omega)
      · simp only [correctFallback, heq]
        simp only [List.get, List.set]
    · have hnone : correctFallback label conf rest = (rest, none) := by
        apply correctFallback_none
        intro v hv
        push_neg at hrest
        exact not_lt.2 (hrest v hv)
      have hu : u.tone_confidence < 1/5 := by
        rcases h with ⟨v, hv, hlt⟩
        rcases List.mem_cons.1 hv with rfl | hmem
        · exact hlt
        · exact absurd ⟨v, hmem, hlt⟩ hrest
      refine ⟨0, by simp, by simpa using hu, ?_, ?_⟩
      · intro j hj h0j
        cases j with
        | zero => omega
        | succ k =>
          simp only [List.get]
          push_neg at hrest
          exact not_lt.2 (hrest _ (by simp [List.get_mem]))
      · simp only [correctFallback, hnone]
        simp only [List.get, List.set]
        rw [if_pos hu]



/-- Claim C4 (amended): when a new tone sample with confidence at least 0.1
arrives via `on_tone_sample`, then for every pending entry whose recorded
`tone_confidence` is below 0.3 and whose window overlaps the sample's window,
if re-aggregating that utterance's window over the updated store yields
confidence ≥ 0.1, a correction event carrying that utterance's id and the
aggregated label is emitted, and the entry's recorded confidence is set to the
aggregated confidence. The original claim omits the guard on the incoming
sample's own confidence: the code returns early when it is below 0.1. -/
theorem claim_C4_retroactive (pending : List PendingEntry)
    (store : List ToneSample) (tr : ToneResult) (sS sE : ℚ)
    (hconf : 1/10 ≤ tr.confidence) (i : ℕ) (hi : i < pending.length)
    (hlow : (pending.get ⟨i, hi⟩).tone_confidence < 3/10)
    (hover : 0 < min (pending.get ⟨i, hi⟩).uend sE -
      max (pending.get ⟨i, hi⟩).ustart sS)
    (agg : AggResult)
    (hagg : aggregate_for_utterance
      (add_sample store ⟨sS, sE, tr.primary_tone, tr.confidence⟩)
      (pending.get ⟨i, hi⟩).ustart (pending.get ⟨i, hi⟩).uend (1/20) (1/10) =
      some agg)
    (haggc : 1/10 ≤ agg.confidence) :
    (⟨(pending.get ⟨i, hi⟩).id, agg.label, agg.confidence⟩ : CorrectionEvent) ∈
      (on_tone_sample pending store tr sS sE).2.2 ∧
    ∃ hi' : i < (on_tone_sample pending store tr sS sE).1.length,
      ((on_tone_sample pending store tr sS sE).1.get ⟨i, hi'⟩).tone_confidence =
        agg.confidence := by
  obtain ⟨hmem, hi', hcf⟩ := correctPending_get
    (add_sample store ⟨sS, sE, tr.primary_tone, tr.confidence⟩) sS sE pending
    i hi hlow hover agg hagg haggc
  have hne : (correctPending
      (add_sample store ⟨sS, sE, tr.primary_tone, tr.confidence⟩) sS sE
      pending).2 ≠ [] := by
    intro hnil
    rw [hnil] at hmem
    exact absurd hmem (List.not_mem_nil _)
  unfold on_tone_sample
  rw [if_neg (not_lt.2 hconf), if_neg hne]
  exact ⟨hmem, hi', hcf⟩

/-- Claim C7 (amended): when a new tone sample with confidence at least 0.1
overlaps no pending entry but some pending entry has recorded confidence below
0.2, exactly one correction event is emitted, carrying the sample's label and
confidence, for the most recently created pending entry with confidence below
0.2 (newest-first scan), and that entry's recorded confidence is set to the
sample's confidence. The original claim omits the guard on the incoming
sample's confidence: the code returns early when it is below 0.1. -/
theorem claim_C7_fallback (pending : List PendingEntry)
    (store : List ToneSample) (tr : ToneResult) (sS sE : ℚ)
    (hconf : 1/10 ≤ tr.confidence)
    (hnoover : ∀ u ∈ pending, min u.uend sE - max u.ustart sS ≤ 0)
    (hsome : ∃ u ∈ pending, u.tone_confidence < 1/5) :
    ∃ (i : ℕ) (hi : i < pending.length),
      (pending.get ⟨i, hi⟩).tone_confidence < 1/5 ∧
      (∀ (j : ℕ) (hj : j < pending.length), i < j →
        ¬ ((pending.get ⟨j, hj⟩).tone_confidence < 1/5)) ∧
      (on_tone_sample pending store tr sS sE).2.2 =
        [⟨(pending.get ⟨i, hi⟩).id, tr.primary_tone, tr.confidence⟩] ∧
      (on_tone_sample pending store tr sS sE).1 =
        pending.set i
          { pending.get ⟨i, hi⟩ with tone_confidence := tr.confidence } := by
  obtain ⟨i, hi, hlow, hafter, heq⟩ :=
    correctFallback_spec tr.primary_tone tr.confidence pending hsome
  refine ⟨i, hi, hlow, hafter, ?_⟩
  unfold on_tone_sample
  rw [if_neg (not_lt.2 hconf),
    correctPending_no_overlap _ sS sE pending hnoover]
  simp only [heq]
  exact ⟨rfl, rfl⟩



/-- Counterexample to claim C4 as stated: a sample with confidence 0.05
overlaps a pending entry with confidence 0 below 0.3, and re-aggregation over
the updated store yields confidence 0.475 ≥ 0.1, yet `on_tone_sample` emits no
event and leaves the entry untouched, because the incoming sample's own
confidence is below 0.1. -/
theorem claim_C4_counterexample :
    on_tone_sample [⟨"u1", 0, 2, 0⟩] [⟨0,1,"happy",9/10⟩] ⟨true,"calm",1/20⟩ 1 2 =
      ([⟨"u1", 0, 2, 0⟩], [⟨0,1,"happy",9/10⟩, ⟨1,2,"calm",1/20⟩], []) ∧
    ((0:ℚ) < 3/10) ∧
    (0 < min (2:ℚ) 2 - max 0 1) ∧
    aggregate_for_utterance [⟨0,1,"happy",9/10⟩, ⟨1,2,"calm",1/20⟩] 0 2
        (1/20) (1/10) = some ⟨"happy", 19/40⟩ ∧
    ((1:ℚ)/10 ≤ 19/40) :=
  ⟨by decide, by norm_num, by norm_num, by decide, by norm_num⟩

/-- Witness for claim C4 at a concrete overlapping correction. -/
theorem claim_C4_witness :
    ((1:ℚ)/10 ≤ (1:ℚ)/2) ∧
    ((0:ℚ) < 3/10) ∧
    (0 < min (2:ℚ) 2 - max 0 1) ∧
    aggregate_for_utterance
        (add_sample [⟨0,1,"happy",9/10⟩] ⟨1, 2, "calm", 1/2⟩) 0 2 (1/20) (1/10) =
      some ⟨"happy", 7/10⟩ ∧
    ((1:ℚ)/10 ≤ (7:ℚ)/10) ∧
    ((⟨"u1", "happy", 7/10⟩ : CorrectionEvent) ∈
      (on_tone_sample [⟨"u1",0,2,0⟩] [⟨0,1,"happy",9/10⟩] ⟨true,"calm",1/2⟩ 1 2).2.2 ∧
    ∃ hi' : 0 < (on_tone_sample [⟨"u1",0,2,0⟩] [⟨0,1,"happy",9/10⟩]
        ⟨true,"calm",1/2⟩ 1 2).1.length,
      ((on_tone_sample [⟨"u1",0,2,0⟩] [⟨0,1,"happy",9/10⟩]
        ⟨true,"calm",1/2⟩ 1 2).1.get ⟨0, hi'⟩).tone_confidence = 7/10) :=
  ⟨by norm_num, by norm_num, by norm_num, by decide, by norm_num,
    claim_C4_retroactive [⟨"u1",0,2,0⟩] [⟨0,1,"happy",9/10⟩] ⟨true,"calm",1/2⟩
      1 2 (by norm_num) 0 (by decide) (by decide) (by norm_num)
      ⟨"happy",7/10⟩ (by decide) (by norm_num)⟩

/-- Counterexample to claim C7 as stated: a sample with confidence 0.05
overlaps nothing while a pending entry has confidence 0 below 0.2, yet
`on_tone_sample` emits no event, because the incoming sample's confidence is
below 0.1. -/
theorem claim_C7_counterexample :
    on_tone_sample [⟨"u1", 0, 2, 0⟩] [] ⟨true, "calm", 1/20⟩ 10 11 =
      ([⟨"u1", 0, 2, 0⟩], [⟨10, 11, "calm", 1/20⟩], []) ∧
    (min (2:ℚ) 11 - max 0 10 ≤ 0) ∧
    ((0:ℚ) < 1/5) :=
  ⟨by decide, by norm_num, by norm_num⟩

/-- Witness for claim C7 at a concrete fallback correction. -/
theorem claim_C7_witness :
    ((1:ℚ)/10 ≤ 1/2) ∧
    (∀ u ∈ ([⟨"u1",0,2,1/10⟩] : List PendingEntry),
      min u.uend 11 - max u.ustart 10 ≤ 0) ∧
    (∃ u ∈ ([⟨"u1",0,2,1/10⟩] : List PendingEntry),
      u.tone_confidence < 1/5) ∧
    (∃ (i : ℕ) (hi : i < ([⟨"u1",0,2,1/10⟩] : List PendingEntry).length),
      (([⟨"u1",0,2,1/10⟩] : List PendingEntry).get ⟨i, hi⟩).tone_confidence < 1/5 ∧
      (∀ (j : ℕ) (hj : j < ([⟨"u1",0,2,1/10⟩] : List PendingEntry).length), i < j →
        ¬ ((([⟨"u1",0,2,1/10⟩] : List PendingEntry).get ⟨j, hj⟩).tone_confidence < 1/5)) ∧
      (on_tone_sample [⟨"u1",0,2,1/10⟩] [] ⟨true,"calm",1/2⟩ 10 11).2.2 =
        [⟨(([⟨"u1",0,2,1/10⟩] : List PendingEntry).get ⟨i, hi⟩).id, "calm", 1/2⟩] ∧
      (on_tone_sample [⟨"u1",0,2,1/10⟩] [] ⟨true,"calm",1/2⟩ 10 11).1 =
        ([⟨"u1",0,2,1/10⟩] : List PendingEntry).set i
          { ([⟨"u1",0,2,1/10⟩] : List PendingEntry).get ⟨i, hi⟩ with
              tone_confidence := 1/2 }) :=
  ⟨by norm_num, by decide, by decide,
    claim_C7_fallback [⟨"u1",0,2,1/10⟩] [] ⟨true,"calm",1/2⟩ 10 11
      (by norm_num) (by decide) (by decide)⟩

/-- Witness for claim C8: a concrete run over a 8000-byte buffer with a failed
classifier result emits the remembered last tone, a raised classifier
exception emits nothing, and the emitted sample passes the gate. -/
theorem claim_C8_witness :
    ((⟨⟨true,"happy",1/2⟩, 1, 1⟩ : EmittedSample).tone =
      Option.getD (some ⟨true,"happy",1/2⟩) neutralTone) ∧
    ((run_analysis ⟨true, 2, 4/5, true, [(List.replicate 8000 0, 1)], 0, 0, 1,
        false, none, some ⟨true,"happy",1/2⟩, 0⟩ 2 (.error "boom")).2 = none) ∧
    ((⟨⟨true,"happy",1/2⟩, 1, 1⟩ : EmittedSample).tone.primary_tone ≠ "" ∧
      (1:ℚ)/20 ≤ (⟨⟨true,"happy",1/2⟩, 1, 1⟩ : EmittedSample).tone.confidence) := by
  have key : ∀ bytes : AudioBytes, bytes.length = 8000 →
      run_analysis ⟨true, 2, 4/5, true, [(bytes, 1)], 0, 0, 1, false, none,
          some ⟨true,"happy",1/2⟩, 0⟩ 2 (.ok ⟨false,"x",1⟩) =
        (⟨true, 2, 4/5, true, [(bytes, 1)], 2, 1, 1, false,
            some ⟨true,"happy",1/2⟩, some ⟨true,"happy",1/2⟩, 1⟩,
          some ⟨⟨true,"happy",1/2⟩, 1, 1⟩) := by
    intro bytes hb
    norm_num [run_analysis, get_buffer_audio, HUME_MAX_BYTES, BYTES_PER_SECOND,
      should_emit_tone, neutralTone, hb]
    all_goals decide
  refine ⟨claim_C8_failure_and_gate.1 _ 2 ⟨false,"x",1⟩ _ _
      (key (List.replicate 8000 0) (by rw [List.length_replicate])) rfl,
    claim_C8_failure_and_gate.2.1 _ 2 "boom",
    claim_C8_failure_and_gate.2.2 _ 2 (.ok ⟨false,"x",1⟩) _ _
      (key (List.replicate 8000 0) (by rw [List.length_replicate]))⟩

end BeyondBinary
